import Mathlib

/-!
Shallow embedding of the typed-header codec core of the `headers` repository:
the `Seconds` duration codec (src/headers-ext/src/util/seconds.rs) and the
`IfModifiedSince` conditional header (src/headers-ext/src/common/if_modified_since.rs),
together with the parts of their environment they use (std `Duration`,
std `SystemTime`, the http crate `HeaderValue`, std `u64` decimal parsing,
and the repository's `HttpDate` calendar-date type, modelled from the spec
because its source file is not among the sources).

Machine integers are embedded as `Nat` with explicit bounds where overflow
matters; fallible operations return `Option`.
-/

namespace HeadersExt

/-- Rust std `Duration`: a whole number of seconds (`u64` in Rust, so below
`2 ^ 64`) plus a nanosecond remainder (kept below `10 ^ 9` by the std
constructors). The embedding carries the bounds as the separate predicate
`Duration.wf` rather than bundling them. -/
structure Duration where
  secs : Nat
  nanos : Nat
deriving DecidableEq, Repr

/-- The representation invariant Rust's `Duration` maintains by construction. -/
def Duration.wf (d : Duration) : Prop := d.secs < 2 ^ 64 ∧ d.nanos < 1000000000

/-- Rust std `Duration::from_secs`: whole seconds, zero nanoseconds. -/
def Duration.from_secs (n : Nat) : Duration := ⟨n, 0⟩

/-- Rust std `Duration::as_secs`: the whole-second part, discarding nanoseconds. -/
def Duration.as_secs (d : Duration) : Nat := d.secs

/-- The derived (lexicographic, field order `secs` then `nanos`) `Ord` on
Rust std `Duration`, as `≤`. -/
def Duration.le (a b : Duration) : Prop :=
  a.secs < b.secs ∨ (a.secs = b.secs ∧ a.nanos ≤ b.nanos)

instance (a b : Duration) : Decidable (Duration.le a b) :=
  inferInstanceAs (Decidable (_ ∨ _))

/-- The http crate `HeaderValue`: an owned byte sequence (bytes as `Nat < 256`;
the claims under study never rely on the upper bound). -/
structure HeaderValue where
  bytes : List Nat
deriving DecidableEq, Repr

/-- The http crate's visible-ASCII test used by `HeaderValue::to_str`:
bytes 32..=126, plus horizontal tab. -/
def isVisibleAscii (b : Nat) : Bool := (32 ≤ b && b < 127) || b == 9

/-- The http crate `HeaderValue::to_str`: succeeds (with the same bytes, now
viewed as text) exactly when every byte is visible ASCII or tab. -/
def HeaderValue.to_str (v : HeaderValue) : Option (List Nat) :=
  if v.bytes.all isVisibleAscii then some v.bytes else none

/-- ASCII decimal digit test (bytes 48..=57), as in `char::to_digit(10)`. -/
def isDigitByte (b : Nat) : Bool := 48 ≤ b && b ≤ 57

/-- Numeric value of a big-endian list of ASCII digit bytes, the accumulation
`acc * 10 + digit` performed by std `from_str_radix` (the embedding computes
the unbounded value and applies the `u64` bound once at the end, which is
extensionally the same as std's per-step checked arithmetic because the
accumulator is monotone). -/
def decValue (ds : List Nat) : Nat := ds.foldl (fun a b => a * 10 + (b - 48)) 0

/-- Rust std `u64::from_str` (`str::parse::<u64>`): empty input fails; an
optional single leading `+` (byte 43) is consumed (`-` is not consumed for an
unsigned type and then fails the digit test); the remaining text must be a
non-empty run of ASCII decimal digits; the value must fit in `u64`. -/
def u64_from_str (s : List Nat) : Option Nat :=
  match s with
  | [] => none
  | c :: cs =>
    let digits := if c == 43 then cs else c :: cs
    if digits.isEmpty then none
    else if digits.all isDigitByte then
      if decValue digits < 2 ^ 64 then some (decValue digits) else none
    else none

/-- `Seconds` from src/headers-ext/src/util/seconds.rs: a newtype over
std `Duration`. Its derived `Eq`/`Ord` delegate to the wrapped `Duration`. -/
structure Seconds where
  dur : Duration
deriving DecidableEq, Repr

/-- The derived `Ord` on `Seconds`, delegating to the single `Duration` field. -/
def Seconds.le (a b : Seconds) : Prop := Duration.le a.dur b.dur

instance (a b : Seconds) : Decidable (Seconds.le a b) :=
  inferInstanceAs (Decidable (Duration.le _ _))

/-- `Seconds::from_val`: `val.to_str().ok()?.parse().ok()?` (the `?` chain is
`Option` bind), then wrap the parsed count with `Duration::from_secs`. -/
def Seconds.from_val (val : HeaderValue) : Option Seconds :=
  (val.to_str.bind u64_from_str).map fun secs => ⟨Duration.from_secs secs⟩

/-- `Seconds::as_u64`: `self.0.as_secs()`. -/
def Seconds.as_u64 (s : Seconds) : Nat := s.dur.as_secs

/-- `TryFromValues for Seconds`: `Seconds::from_val(values.next()?)`. The
single-pass cursor is embedded as the list of values not yet consumed, and
the `&mut` consumption as explicit state passing: the result is paired with
the values remaining after the call. -/
def Seconds.try_from_values (values : List HeaderValue) :
    Option Seconds × List HeaderValue :=
  match values with
  | [] => (none, [])
  | v :: rest => (Seconds.from_val v, rest)

/-- `From<Duration> for Seconds`: wraps the duration unchanged. -/
def Seconds.fromDuration (dur : Duration) : Seconds := ⟨dur⟩

/-- `From<Seconds> for Duration`: unwraps the stored duration unchanged. -/
def Seconds.toDuration (secs : Seconds) : Duration := secs.dur

/-- Radix for second/nanosecond conversion. -/
def nanosPerSec : Nat := 1000000000

/-- Rust std `SystemTime`, embedded as nanoseconds since the UNIX epoch
(the repository only ever uses epoch-or-later instants). -/
structure SystemTime where
  nanos : Nat
deriving DecidableEq, Repr

/-- The derived order on `SystemTime`: by instant. -/
def SystemTime.le (a b : SystemTime) : Prop := a.nanos ≤ b.nanos

instance (a b : SystemTime) : Decidable (SystemTime.le a b) :=
  inferInstanceAs (Decidable (_ ≤ _))

/-- Rust `SystemTime - Duration`. In Rust this panics on underflow; theorems
that use it carry a no-underflow hypothesis, under which the `Nat` truncation
below agrees with Rust. -/
def SystemTime.subDuration (t : SystemTime) (d : Duration) : SystemTime :=
  ⟨t.nanos - (d.secs * nanosPerSec + d.nanos)⟩

/-- Modelled from the spec: the repository's calendar-date type
`util::HttpDate` (its source file, src/headers-ext/src/util/http_date.rs, is
not among the sources; only its use sites in if_modified_since.rs are).
Per the specification it represents a point in time at one-second resolution:
converting an instant into it floors (truncates, never rounds) any sub-second
component, and converting back yields the whole-second instant. -/
structure HttpDate where
  secs : Nat
deriving DecidableEq, Repr

/-- Modelled from the spec: `From<SystemTime> for HttpDate` floors the
instant to one-second resolution. -/
def HttpDate.ofSystemTime (t : SystemTime) : HttpDate := ⟨t.nanos / nanosPerSec⟩

/-- Modelled from the spec: `From<HttpDate> for SystemTime` yields the
whole-second instant the date stores. -/
def HttpDate.toSystemTime (d : HttpDate) : SystemTime := ⟨d.secs * nanosPerSec⟩

/-- `IfModifiedSince` from src/headers-ext/src/common/if_modified_since.rs:
a newtype over `HttpDate`. -/
structure IfModifiedSince where
  date : HttpDate
deriving DecidableEq, Repr

/-- `IfModifiedSince::is_modified`: convert the wrapped date back to a
`SystemTime` and test `last_modified >= if_mod`. -/
def IfModifiedSince.is_modified (self : IfModifiedSince)
    (last_modified : SystemTime) : Bool :=
  decide (SystemTime.le (HttpDate.toSystemTime self.date) last_modified)

/-- `From<SystemTime> for IfModifiedSince`: `IfModifiedSince(time.into())`. -/
def IfModifiedSince.fromSystemTime (time : SystemTime) : IfModifiedSince :=
  ⟨HttpDate.ofSystemTime time⟩

/-- `From<IfModifiedSince> for SystemTime`: `date.0.into()`. -/
def IfModifiedSince.toSystemTime (date : IfModifiedSince) : SystemTime :=
  HttpDate.toSystemTime date.date

/-- Little-endian decimal digits of a natural number, with a fuel argument
that makes the recursion structural (so the kernel can evaluate it). -/
def natDigitsLEAux : Nat → Nat → List Nat
  | 0, _ => []
  | _ + 1, 0 => []
  | fuel + 1, n + 1 => ((n + 1) % 10) :: natDigitsLEAux fuel ((n + 1) / 10)

/-- Little-endian decimal digits; fuel `n` suffices because the argument
strictly decreases under division by 10. -/
def natDigitsLE (n : Nat) : List Nat := natDigitsLEAux n n

/-- Value of a little-endian decimal digit list. -/
def ofDigitsLE : List Nat → Nat
  | [] => 0
  | d :: ds => d + 10 * ofDigitsLE ds

/-- The minimal decimal text encoding of a `u64` shared by std's `Display`
for `u64` and the http crate's `From<u64> for HeaderValue`: the big-endian
digits as ASCII bytes, with the single byte "0" for zero, no sign, no
leading zeros. -/
def u64DecimalBytes (n : Nat) : List Nat :=
  if n = 0 then [48] else (natDigitsLE n).reverse.map (fun d => d + 48)

/-- `From<&Seconds> for HeaderValue`: `secs.0.as_secs().into()` — the decimal
text of the whole-second count (sub-second part discarded by `as_secs`). -/
def headerValueOfSeconds (s : Seconds) : HeaderValue :=
  ⟨u64DecimalBytes s.dur.as_secs⟩

/-! ## Helper lemmas -/

theorem ofDigitsLE_natDigitsLEAux :
    ∀ fuel n, n ≤ fuel → ofDigitsLE (natDigitsLEAux fuel n) = n
  | 0, 0, _ => rfl
  | 0, _ + 1, h => absurd h (by omega)
  | _ + 1, 0, _ => rfl
  | fuel + 1, n + 1, h => by
    have hdiv : (n + 1) / 10 ≤ fuel := by
      have := Nat.div_lt_self (Nat.succ_pos n) (by norm_num : 1 < 10)
      omega
    simp only [natDigitsLEAux, ofDigitsLE,
      ofDigitsLE_natDigitsLEAux fuel ((n + 1) / 10) hdiv]
    omega

theorem ofDigitsLE_natDigitsLE (n : Nat) : ofDigitsLE (natDigitsLE n) = n :=
  ofDigitsLE_natDigitsLEAux n n (Nat.le_refl n)

theorem mem_natDigitsLEAux_lt :
    ∀ fuel n d, d ∈ natDigitsLEAux fuel n → d < 10
  | 0, _, d, h => by simp [natDigitsLEAux] at h
  | _ + 1, 0, d, h => by simp [natDigitsLEAux] at h
  | fuel + 1, n + 1, d, h => by
    simp only [natDigitsLEAux, List.mem_cons] at h
    rcases h with rfl | h
    · exact Nat.mod_lt _ (by norm_num)
    · exact mem_natDigitsLEAux_lt fuel ((n + 1) / 10) d h

theorem natDigitsLE_ne_nil (n : Nat) (hn : 0 < n) : natDigitsLE n ≠ [] := by
  obtain ⟨m, rfl⟩ := Nat.exists_eq_add_of_lt hn
  simp [natDigitsLE, natDigitsLEAux]

theorem foldl_reverse_ofDigitsLE (L : List Nat) :
    List.foldl (fun a d => a * 10 + d) 0 L.reverse = ofDigitsLE L := by
  induction L with
  | nil => rfl
  | cons d L ih =>
    simp only [List.reverse_cons, List.foldl_append, ih, List.foldl_cons,
      List.foldl_nil, ofDigitsLE]
    omega

theorem decValue_map_add48 (L : List Nat) :
    decValue (L.map fun d => d + 48) =
      List.foldl (fun a d => a * 10 + d) 0 L := by
  simp [decValue, List.foldl_map]

theorem decValue_u64DecimalBytes (n : Nat) :
    decValue (u64DecimalBytes n) = n := by
  rcases Nat.eq_zero_or_pos n with rfl | hn
  · rfl
  · have hne : n ≠ 0 := Nat.pos_iff_ne_zero.mp hn
    rw [u64DecimalBytes, if_neg hne, decValue_map_add48,
      foldl_reverse_ofDigitsLE]
    exact ofDigitsLE_natDigitsLE n

theorem mem_u64DecimalBytes (n b : Nat) (hb : b ∈ u64DecimalBytes n) :
    48 ≤ b ∧ b ≤ 57 := by
  rcases Nat.eq_zero_or_pos n with rfl | hn
  · simp [u64DecimalBytes] at hb
    omega
  · have hne : n ≠ 0 := Nat.pos_iff_ne_zero.mp hn
    rw [u64DecimalBytes, if_neg hne] at hb
    simp only [List.mem_map, List.mem_reverse] at hb
    obtain ⟨d, hd, rfl⟩ := hb
    have := mem_natDigitsLEAux_lt n n d hd
    omega

theorem u64DecimalBytes_ne_nil (n : Nat) : u64DecimalBytes n ≠ [] := by
  rcases Nat.eq_zero_or_pos n with rfl | hn
  · simp [u64DecimalBytes]
  · have hne : n ≠ 0 := Nat.pos_iff_ne_zero.mp hn
    rw [u64DecimalBytes, if_neg hne]
    simp [natDigitsLE_ne_nil n hn]

theorem u64_from_str_all_digits (s : List Nat) (hne : s ≠ [])
    (hd : ∀ b ∈ s, isDigitByte b = true) (hlt : decValue s < 2 ^ 64) :
    u64_from_str s = some (decValue s) := by
  obtain ⟨c, cs, rfl⟩ := List.exists_cons_of_ne_nil hne
  have hc := hd c (List.mem_cons_self c cs)
  have hc43 : (c == 43) = false := by
    simp only [isDigitByte, Bool.and_eq_true, decide_eq_true_eq] at hc
    simp only [beq_eq_false_iff_ne, ne_eq]
    omega
  simp only [u64_from_str, hc43, Bool.false_eq_true, if_false,
    List.isEmpty_cons, List.all_eq_true.mpr hd, if_true, if_pos hlt]

theorem u64_from_str_lt (s : List Nat) (n : Nat)
    (h : u64_from_str s = some n) : n < 2 ^ 64 := by
  rcases s with _ | ⟨c, cs⟩
  · simp [u64_from_str] at h
  · simp only [u64_from_str] at h
    split at h
    case isTrue =>
      split at h
      · exact absurd h (by simp)
      · split at h
        · split at h
          · obtain rfl := Option.some.inj h
            assumption
          · exact absurd h (by simp)
        · exact absurd h (by simp)
    case isFalse =>
      split at h
      · exact absurd h (by simp)
      · split at h
        · split at h
          · obtain rfl := Option.some.inj h
            assumption
          · exact absurd h (by simp)
        · exact absurd h (by simp)

theorem u64_from_str_plus (ds : List Nat) (hne : ds ≠ [])
    (hd : ∀ b ∈ ds, isDigitByte b = true) (hlt : decValue ds < 2 ^ 64) :
    u64_from_str (43 :: ds) = some (decValue ds) := by
  have hemp : ds.isEmpty = false := by
    rcases ds with _ | ⟨d, ds⟩
    · exact absurd rfl hne
    · rfl
  simp only [u64_from_str, beq_self_eq_true, if_true, hemp,
    Bool.false_eq_true, if_false, List.all_eq_true.mpr hd, if_pos hlt]

theorem u64_from_str_some_structure (s : List Nat) (n : Nat)
    (h : u64_from_str s = some n) :
    ∃ ds : List Nat, (s = ds ∨ s = 43 :: ds) ∧ ds ≠ [] ∧
      (∀ b ∈ ds, isDigitByte b = true) ∧ decValue ds < 2 ^ 64 := by
  rcases s with _ | ⟨c, cs⟩
  · simp [u64_from_str] at h
  · simp only [u64_from_str] at h
    split at h
    case isTrue h43 =>
      have hc : c = 43 := by simpa using h43
      split at h
      case isTrue => exact absurd h (by simp)
      case isFalse hemp =>
        split at h
        case isTrue hall =>
          split at h
          case isTrue hlt =>
            exact ⟨cs, Or.inr (by rw [hc]),
              by simpa using hemp, List.all_eq_true.mp hall, hlt⟩
          case isFalse => exact absurd h (by simp)
        case isFalse => exact absurd h (by simp)
    case isFalse h43 =>
      split at h
      case isTrue => exact absurd h (by simp)
      case isFalse hemp =>
        split at h
        case isTrue hall =>
          split at h
          case isTrue hlt =>
            exact ⟨c :: cs, Or.inl rfl, by simp,
              List.all_eq_true.mp hall, hlt⟩
          case isFalse => exact absurd h (by simp)
        case isFalse => exact absurd h (by simp)

theorem digit_visible (b : Nat) (h : isDigitByte b = true) :
    isVisibleAscii b = true := by
  simp only [isDigitByte, Bool.and_eq_true, decide_eq_true_eq] at h
  simp only [isVisibleAscii, Bool.or_eq_true, Bool.and_eq_true,
    decide_eq_true_eq, beq_iff_eq]
  omega

/-- The texts accepted by `Seconds` parsing (used by the amended claim C2):
an optional single leading plus sign (byte 43) followed by a non-empty run
of ASCII decimal digits whose numeric value fits the unsigned 64-bit range;
leading zeros are allowed. -/
def acceptedSecondsText (bytes : List Nat) : Prop :=
  ∃ ds : List Nat, (bytes = ds ∨ bytes = 43 :: ds) ∧ ds ≠ [] ∧
    (∀ b ∈ ds, isDigitByte b = true) ∧ decValue ds < 2 ^ 64

/-! ## Claim theorems -/

/-- C1: `is_modified(candidate)` returns true exactly when the candidate is
at or after the reference instant (the wrapped date converted back to a
`SystemTime`); in particular a candidate exactly equal to the reference
instant is reported as modified. -/
theorem is_modified_ge_reference (ims : IfModifiedSince) (t : SystemTime) :
    (ims.is_modified t = true ↔ SystemTime.le ims.toSystemTime t) ∧
    ims.is_modified ims.toSystemTime = true := by
  refine ⟨?_, ?_⟩
  · simp [IfModifiedSince.is_modified, IfModifiedSince.toSystemTime]
  · simp [IfModifiedSince.is_modified, IfModifiedSince.toSystemTime,
      SystemTime.le]

/-- C1 witness: the characterization at the concrete reference date 5 s and
candidate 5 s. -/
theorem is_modified_ge_reference_witness :
    ((IfModifiedSince.mk ⟨5⟩).is_modified ⟨5000000000⟩ = true ↔
      SystemTime.le (IfModifiedSince.mk ⟨5⟩).toSystemTime ⟨5000000000⟩) ∧
    (IfModifiedSince.mk ⟨5⟩).is_modified
      (IfModifiedSince.mk ⟨5⟩).toSystemTime = true :=
  is_modified_ge_reference ⟨⟨5⟩⟩ ⟨5000000000⟩

/-- C8: decoding `Seconds` from a cursor that yields zero values returns
nothing (and, the embedding being total, cannot panic). -/
theorem try_from_values_empty :
    Seconds.try_from_values [] = (none, []) := rfl

/-- C9: `Seconds` decode consumes exactly one value from the cursor; the
result is the parse of that first value alone, and any further values are
left unread and never treated as an error. -/
theorem try_from_values_consumes_one (v : HeaderValue)
    (rest : List HeaderValue) :
    Seconds.try_from_values (v :: rest) = (Seconds.from_val v, rest) := rfl

/-- C10: converting a native `Duration` into `Seconds` keeps the duration
exactly (sub-second part included), so converting back is the identity;
`as_u64` meanwhile reads only the whole-second part. -/
theorem seconds_duration_roundtrip (d : Duration) :
    Seconds.toDuration (Seconds.fromDuration d) = d ∧
    Seconds.as_u64 (Seconds.fromDuration d) = d.secs :=
  ⟨rfl, rfl⟩

/-- C4: with `ref = IfModifiedSince::from(now - 1s)` (defined whenever
`now - 2s` does not underflow, which Rust requires anyway), `now` and
`now - 1s` are reported modified and `now - 2s` is not — for every instant
`now`, sub-second component or not. -/
theorem is_modified_scenario (now : SystemTime)
    (h : 2 * nanosPerSec ≤ now.nanos) :
    (IfModifiedSince.fromSystemTime
        (now.subDuration (Duration.from_secs 1))).is_modified now = true ∧
    (IfModifiedSince.fromSystemTime
        (now.subDuration (Duration.from_secs 1))).is_modified
        (now.subDuration (Duration.from_secs 1)) = true ∧
    (IfModifiedSince.fromSystemTime
        (now.subDuration (Duration.from_secs 1))).is_modified
        (now.subDuration (Duration.from_secs 2)) = false := by
  have hsec : 0 < nanosPerSec := by decide
  obtain ⟨N⟩ := now
  simp only [IfModifiedSince.is_modified, IfModifiedSince.fromSystemTime,
    HttpDate.ofSystemTime, HttpDate.toSystemTime, SystemTime.subDuration,
    SystemTime.le, Duration.from_secs, decide_eq_true_eq, decide_eq_false_iff_not]
  have hmod := Nat.div_add_mod (N - (1 * nanosPerSec + 0)) nanosPerSec
  have hlt : (N - (1 * nanosPerSec + 0)) % nanosPerSec < nanosPerSec :=
    Nat.mod_lt _ hsec
  simp only [nanosPerSec] at hmod hlt h ⊢
  omega

/-- C4 witness: the scenario at the concrete instant 2.5 s after the epoch
(a sub-second instant). -/
theorem is_modified_scenario_witness :
    2 * nanosPerSec ≤ (2500000000 : Nat) ∧
    ((IfModifiedSince.fromSystemTime
        ((SystemTime.mk 2500000000).subDuration
          (Duration.from_secs 1))).is_modified ⟨2500000000⟩ = true ∧
    (IfModifiedSince.fromSystemTime
        ((SystemTime.mk 2500000000).subDuration
          (Duration.from_secs 1))).is_modified
        ((SystemTime.mk 2500000000).subDuration (Duration.from_secs 1)) = true ∧
    (IfModifiedSince.fromSystemTime
        ((SystemTime.mk 2500000000).subDuration
          (Duration.from_secs 1))).is_modified
        ((SystemTime.mk 2500000000).subDuration (Duration.from_secs 2)) = false) :=
  ⟨by decide, is_modified_scenario ⟨2500000000⟩ (by decide)⟩

/-- C5: `IfModifiedSince::from(t)` stores `t` floored (truncated, never
rounded) to one-second resolution, so the round trip back to `SystemTime`
discards exactly the sub-second part and is the identity precisely on
whole-second instants. -/
theorem from_system_time_floors (t : SystemTime) :
    (IfModifiedSince.fromSystemTime t).date.secs = t.nanos / nanosPerSec ∧
    (IfModifiedSince.toSystemTime (IfModifiedSince.fromSystemTime t)).nanos =
      t.nanos / nanosPerSec * nanosPerSec ∧
    (t.nanos % nanosPerSec = 0 ↔
      IfModifiedSince.toSystemTime (IfModifiedSince.fromSystemTime t) = t) := by
  obtain ⟨N⟩ := t
  refine ⟨rfl, rfl, ?_⟩
  simp only [IfModifiedSince.toSystemTime, IfModifiedSince.fromSystemTime,
    HttpDate.ofSystemTime, HttpDate.toSystemTime, SystemTime.mk.injEq]
  have hmod := Nat.div_add_mod N nanosPerSec
  have hlt : N % nanosPerSec < nanosPerSec := Nat.mod_lt _ (by decide)
  simp only [nanosPerSec] at hmod hlt ⊢
  omega

/-- C5 witness: the flooring characterization at the concrete sub-second
instant 1.5 s after the epoch. -/
theorem from_system_time_floors_witness :
    (IfModifiedSince.fromSystemTime ⟨1500000000⟩).date.secs =
      1500000000 / nanosPerSec ∧
    (IfModifiedSince.toSystemTime
        (IfModifiedSince.fromSystemTime ⟨1500000000⟩)).nanos =
      1500000000 / nanosPerSec * nanosPerSec ∧
    ((1500000000 : Nat) % nanosPerSec = 0 ↔
      IfModifiedSince.toSystemTime (IfModifiedSince.fromSystemTime ⟨1500000000⟩) =
        ⟨1500000000⟩) :=
  from_system_time_floors ⟨1500000000⟩

/-- C3: for every unsigned 64-bit count `n`, encoding
`Seconds(Duration::from_secs(n))` to its decimal header value and parsing
that text back yields `Some` of the same `Seconds` value. -/
theorem seconds_text_roundtrip (n : Nat) (h : n < 2 ^ 64) :
    Seconds.from_val (headerValueOfSeconds ⟨Duration.from_secs n⟩) =
      some ⟨Duration.from_secs n⟩ := by
  have hdig : ∀ b ∈ u64DecimalBytes n, isDigitByte b = true := by
    intro b hb
    have := mem_u64DecimalBytes n b hb
    simp only [isDigitByte, Bool.and_eq_true, decide_eq_true_eq]
    omega
  have hvis : (u64DecimalBytes n).all isVisibleAscii = true :=
    List.all_eq_true.mpr fun b hb => digit_visible b (hdig b hb)
  have hstr : (HeaderValue.mk (u64DecimalBytes n)).to_str =
      some (u64DecimalBytes n) := by
    simp [HeaderValue.to_str, hvis]
  have hval : decValue (u64DecimalBytes n) = n := decValue_u64DecimalBytes n
  have hparse : u64_from_str (u64DecimalBytes n) = some n := by
    rw [u64_from_str_all_digits _ (u64DecimalBytes_ne_nil n) hdig
      (by rw [hval]; exact h), hval]
  show Seconds.from_val ⟨u64DecimalBytes n⟩ = some ⟨Duration.from_secs n⟩
  simp [Seconds.from_val, hstr, hparse]

/-- C3 witness: the round trip at the concrete count 3600. -/
theorem seconds_text_roundtrip_witness :
    (3600 : Nat) < 2 ^ 64 ∧
    Seconds.from_val (headerValueOfSeconds ⟨Duration.from_secs 3600⟩) =
      some ⟨Duration.from_secs 3600⟩ :=
  ⟨by decide, seconds_text_roundtrip 3600 (by decide)⟩

/-- C2 counterexample: the claim predicts that the text "07" (bytes 48, 55 —
a leading zero on a value other than the literal "0") and the text "+1"
(bytes 43, 49 — a sign) both fail to parse; std's `u64` parser accepts both,
so `Seconds::from_val` returns `Some` for both. -/
theorem from_val_claim_counterexample :
    Seconds.from_val ⟨[48, 55]⟩ = some ⟨Duration.from_secs 7⟩ ∧
    Seconds.from_val ⟨[43, 49]⟩ = some ⟨Duration.from_secs 1⟩ := by
  decide

/-- C2 (amended): `Seconds::from_val` succeeds exactly on texts consisting of
an optional single leading plus sign followed by a non-empty run of ASCII
decimal digits (leading zeros allowed) whose numeric value fits the unsigned
64-bit range; everything else (empty text, minus sign, whitespace, other
non-digits, overflow) returns nothing. -/
theorem from_val_some_iff (bytes : List Nat) :
    (Seconds.from_val ⟨bytes⟩).isSome = true ↔ acceptedSecondsText bytes := by
  constructor
  · intro h
    rcases hstr : (HeaderValue.mk bytes).to_str with _ | s
    · simp [Seconds.from_val, hstr] at h
    · have hsb : s = bytes := by
        simp only [HeaderValue.to_str] at hstr
        split at hstr
        · exact (Option.some.inj hstr).symm
        · exact absurd hstr (by simp)
      subst hsb
      rcases hp : u64_from_str s with _ | v
      · simp [Seconds.from_val, hstr, hp] at h
      · exact u64_from_str_some_structure s v hp
  · rintro ⟨ds, hds, hne, hd, hlt⟩
    have hvis : bytes.all isVisibleAscii = true := by
      rw [List.all_eq_true]
      intro b hb
      rcases hds with rfl | rfl
      · exact digit_visible b (hd b hb)
      · rcases List.mem_cons.mp hb with rfl | hb
        · rfl
        · exact digit_visible b (hd b hb)
    have hstr : (HeaderValue.mk bytes).to_str = some bytes := by
      simp [HeaderValue.to_str, hvis]
    have hp : u64_from_str bytes = some (decValue ds) := by
      rcases hds with rfl | rfl
      · exact u64_from_str_all_digits bytes hne hd hlt
      · exact u64_from_str_plus ds hne hd hlt
    simp [Seconds.from_val, hstr, hp]

/-- C2 (amended) witness: the characterization evaluated at the concrete
text "+007" (bytes 43, 48, 48, 55), which parses to 7 seconds. -/
theorem from_val_some_iff_witness :
    (Seconds.from_val ⟨[43, 48, 48, 55]⟩).isSome = true ↔
      acceptedSecondsText [43, 48, 48, 55] :=
  from_val_some_iff [43, 48, 48, 55]

/-- C6 counterexample: the `Seconds` values built from the durations
1 s + 500 ms and exactly 1 s have the same whole-second count (`as_u64`),
yet they are unequal and the first is not `<=` the second — so equality and
ordering are not numeric by second count. -/
theorem seconds_order_counterexample :
    Seconds.as_u64 (Seconds.fromDuration ⟨1, 500000000⟩) =
      Seconds.as_u64 (Seconds.fromDuration ⟨1, 0⟩) ∧
    Seconds.fromDuration ⟨1, 500000000⟩ ≠ Seconds.fromDuration ⟨1, 0⟩ ∧
    ¬ Seconds.le (Seconds.fromDuration ⟨1, 500000000⟩)
      (Seconds.fromDuration ⟨1, 0⟩) := by
  refine ⟨rfl, by decide, by decide⟩

/-- C6 (amended): equality and ordering of `Seconds` delegate to the full
wrapped `Duration` — equality is componentwise, ordering is lexicographic on
(seconds, nanoseconds); whenever both values carry a zero sub-second
component (as every parsed value does), this coincides with numeric
comparison of the whole-second counts `as_u64`. -/
theorem seconds_order_by_duration (a b : Seconds) :
    (a = b ↔ a.dur.secs = b.dur.secs ∧ a.dur.nanos = b.dur.nanos) ∧
    (Seconds.le a b ↔
      (a.dur.secs < b.dur.secs ∨
        (a.dur.secs = b.dur.secs ∧ a.dur.nanos ≤ b.dur.nanos))) ∧
    (a.dur.nanos = 0 → b.dur.nanos = 0 →
      ((a = b ↔ Seconds.as_u64 a = Seconds.as_u64 b) ∧
        (Seconds.le a b ↔ Seconds.as_u64 a ≤ Seconds.as_u64 b))) := by
  obtain ⟨⟨as, an⟩⟩ := a
  obtain ⟨⟨bs, bn⟩⟩ := b
  simp only [Seconds.le, Duration.le, Seconds.as_u64, Duration.as_secs,
    Seconds.mk.injEq, Duration.mk.injEq]
  refine ⟨trivial, trivial, ?_⟩
  omega

/-- C6 (amended) witness: the zero-sub-second coincidence at the concrete
values 3 s and 5 s. -/
theorem seconds_order_by_duration_witness :
    (Seconds.fromDuration ⟨3, 0⟩ = Seconds.fromDuration ⟨5, 0⟩ ↔
      Seconds.as_u64 (Seconds.fromDuration ⟨3, 0⟩) =
        Seconds.as_u64 (Seconds.fromDuration ⟨5, 0⟩)) ∧
    (Seconds.le (Seconds.fromDuration ⟨3, 0⟩) (Seconds.fromDuration ⟨5, 0⟩) ↔
      Seconds.as_u64 (Seconds.fromDuration ⟨3, 0⟩) ≤
        Seconds.as_u64 (Seconds.fromDuration ⟨5, 0⟩)) :=
  (seconds_order_by_duration (Seconds.fromDuration ⟨3, 0⟩)
    (Seconds.fromDuration ⟨5, 0⟩)).2.2 rfl rfl

/-- C7 counterexample: `Seconds::from(Duration::new(1, 500_000_000))` is a
constructible `Seconds` whose stored duration keeps the half-second
sub-second component (observable through `From<Seconds> for Duration`),
so not every constructor yields a value with no sub-second component. -/
theorem seconds_invariant_counterexample :
    (Seconds.toDuration (Seconds.fromDuration ⟨1, 500000000⟩)).nanos ≠ 0 := by
  decide

/-- C7 (amended): every `Seconds` obtained by parsing a header value stores
a whole number of seconds below `2 ^ 64` with a zero sub-second component;
the `From<Duration>` constructor preserves its well-formed input exactly —
its second count stays in `u64` range, but any sub-second component is kept
rather than discarded. -/
theorem seconds_invariant (v : HeaderValue) (s : Seconds)
    (h : Seconds.from_val v = some s) :
    (s.dur.nanos = 0 ∧ s.dur.secs < 2 ^ 64) ∧
    (∀ d : Duration, d.wf →
      (Seconds.fromDuration d).dur.wf ∧ (Seconds.fromDuration d).dur = d) := by
  constructor
  · simp only [Seconds.from_val, Option.map_eq_some'] at h
    obtain ⟨n, hn, rfl⟩ := h
    obtain ⟨str, hstr, hp⟩ := Option.bind_eq_some.mp hn
    exact ⟨rfl, u64_from_str_lt str n hp⟩
  · intro d hd
    exact ⟨hd, rfl⟩

/-- C7 (amended) witness: the invariant at the concrete header text "3"
(byte 51), which parses to 3 whole seconds. -/
theorem seconds_invariant_witness :
    Seconds.from_val ⟨[51]⟩ = some ⟨⟨3, 0⟩⟩ ∧
    ((⟨⟨3, 0⟩⟩ : Seconds).dur.nanos = 0 ∧
      (⟨⟨3, 0⟩⟩ : Seconds).dur.secs < 2 ^ 64) :=
  ⟨by decide, (seconds_invariant ⟨[51]⟩ ⟨⟨3, 0⟩⟩ (by decide)).1⟩

end HeadersExt
